import Mathlib

/-
Shallow embedding of the tendermint-sg proof-of-stake consensus engine
(spartan-gold extension).  JavaScript `Map`s and plain objects used as
dictionaries are modelled as association lists (`List (κ × α)`) whose
operations mirror the JS semantics: `Map.get` returns the first binding
or `undefined` (`none`), `Map.set` updates an existing binding in place
or appends a new one at the end, `Map.delete` removes the binding.
JS numbers are modelled as exact integers (`ℤ`/`ℕ`) and the two places
where the source divides (`2 * totalStake / 3` in `countVotes` and the
slashing `proportion` in `punishCheater`) are modelled as exact rational
arithmetic over `ℚ`.
-/

abbrev Addr := String

def mget {κ α : Type} [DecidableEq κ] : List (κ × α) → κ → Option α
  | [], _ => none
  | (a, v) :: r, k => if a = k then some v else mget r k

def mset {κ α : Type} [DecidableEq κ] : List (κ × α) → κ → α → List (κ × α)
  | [], k, v => [(k, v)]
  | (a, w) :: r, k, v => if a = k then (k, v) :: r else (a, w) :: mset r k v

def mdel {κ α : Type} [DecidableEq κ] : List (κ × α) → κ → List (κ × α)
  | [], _ => []
  | (a, w) :: r, k => if a = k then r else (a, w) :: mdel r k

def msumZ {κ : Type} (m : List (κ × ℤ)) : ℤ := (m.map Prod.snd).sum

/-- Identity payload of a vote: the source hashes the JSON of the object
`o` holding all fields except the signature
(`utils.hash(JSON.stringify(o))`); the hash is idealized as the record of
those fields themselves (collision-free). -/
structure VoteId where
  vfrom : Addr
  height : ℕ
  round : ℕ
  type : String
  blockID : String
  pubKey : String
deriving DecidableEq, Repr

/-- The `Vote` class of vote.js.  The JS field `from` is a Lean keyword and
is rendered `vfrom`.  A signature is modelled (spec section 6 treats the
crypto primitives as external collaborators) as the pair of the signing
key and the signed payload. -/
structure Vote where
  vfrom : Addr
  height : ℕ
  round : ℕ
  type : String
  blockID : String
  pubKey : String
  sig : Option (String × VoteId)
deriving DecidableEq, Repr

def Vote.id (v : Vote) : VoteId :=
  ⟨v.vfrom, v.height, v.round, v.type, v.blockID, v.pubKey⟩

/-- Modelled from the spec section 6: `utils.addressMatchesKey` of the host
platform (spartan-gold, not among the provided sources); address
derivation `addressOf` is idealized as the identity on key strings, so an
address matches a public key iff they are equal. -/
def addressMatchesKey (addr pk : String) : Bool := addr = pk

/-- Modelled from the spec section 6: `utils.verifySignature` of the host
platform; with the idealized signature scheme a signature is valid for
`pk` over `payload` iff it is exactly the pair `(pk, payload)`. -/
def verifySignature (pk : String) (payload : VoteId) (s : String × VoteId) : Bool :=
  s.1 = pk ∧ s.2 = payload

/-- Phase constant `StakeBlockchain.COMMIT`.  Modelled from the spec
section 6: the network-channel / phase string constants of the full
StakeBlockchain class are not among the provided sources (the provided
variant defines only BLOCK_PROPOSAL and PREVOTE); they are bit-stable
strings. -/
def COMMIT : String := "COMMIT"

/-- Phase constant for prevotes (src/stake-blockchain.js). -/
def PREVOTE : String := "PREVOTE"

/-- Sentinel `StakeBlockchain.NIL`.  Modelled from the spec section 3: a
distinguished value disjoint from any real blockID, denoting a nil vote. -/
def NIL : String := "NIL"

/-- `Vote.hasValidSignature` from vote.js. -/
def Vote.hasValidSignature (v : Vote) : Bool :=
  match v.sig with
  | none => false
  | some s =>
    if !(addressMatchesKey v.vfrom v.pubKey) then false
    else verifySignature v.pubKey v.id s

/-- The engine-state fields of the validator (`this.height`, `this.round`)
consulted by `Vote.isValid` and `countVotes`. -/
structure EngineState where
  height : ℕ
  round : ℕ
deriving DecidableEq, Repr

/-- `Vote.isValid(validator)` from vote.js. -/
def Vote.isValid (v : Vote) (s : EngineState) : Bool :=
  if s.height > v.height then false
  else if s.round > v.round ∧ v.type ≠ COMMIT then false
  else if !v.hasValidSignature then false
  else true

/-- `Vote.fresherThan(otherVote)` from vote.js. -/
def Vote.fresherThan (v other : Vote) : Bool :=
  if v.height > other.height then true
  else if v.height < other.height then false
  else decide (v.round > other.round)

/-- Modelled from the spec section 4.3: `Vote.isStale`, called by
`countVotes` (src/stake-blockchain.js line 338), is not among the provided
sources; a vote is stale iff its height is below the engine's height, or
its round is below the engine's round and its phase is not Commit
(commits stay valid across later rounds). -/
def Vote.isStale (v : Vote) (height round : ℕ) : Bool :=
  if v.height < height then true
  else if v.round < round ∧ v.type ≠ COMMIT then true
  else false

/-- `verifyAndVote(vote, ballotBox)` from src/stake-blockchain.js
(lines 285-314).  The ballot box object is a map from a validator address
to its stored vote.  The result is the updated ballot box together with
the argument triple of the `postEvidenceTransaction` call when one is
made.  The labelled `break out` of the source falls through to the final
`ballotBox[vote.from] = vote` store. -/
def verifyAndVote (s : EngineState) (vote : Vote) (ballotBox : List (Addr × Vote)) :
    List (Addr × Vote) × Option (Addr × Vote × Vote) :=
  if !(vote.isValid s) then (ballotBox, none)
  else
    match mget ballotBox vote.vfrom with
    | none => (mset ballotBox vote.vfrom vote, none)
    | some currentVote =>
      if vote.fresherThan currentVote then
        (mset ballotBox vote.vfrom vote, none)
      else if currentVote.fresherThan vote then
        (ballotBox, none)
      else if currentVote.id = vote.id then
        (ballotBox, none)
      else
        (mset ballotBox vote.vfrom vote, some (vote.vfrom, currentVote, vote))

/-- The body of the `Object.keys(ballotBox).forEach` loop of `countVotes`
(src/stake-blockchain.js lines 333-354), written as a recursion over the
ballot-box entries; the accumulated state is the `candidateBlocks` map
together with `winningBlockID`. -/
def cvFold (sb : List (Addr × ℤ)) (votesNeeded : ℚ) (height round : ℕ) :
    List (String × ℤ) → Option String → List (Addr × Vote) →
    List (String × ℤ) × Option String
  | cand, winner, [] => (cand, winner)
  | cand, winner, p :: rest =>
    let stake := (mget sb p.1).getD 0
    let vote := p.2
    if vote.isStale height round then
      cvFold sb votesNeeded height round cand winner rest
    else
      let blockID := vote.blockID
      let currentVotes := (mget cand blockID).getD 0 + stake
      if (currentVotes : ℚ) > votesNeeded then
        cvFold sb votesNeeded height round (mset cand blockID currentVotes)
          (some (if blockID = NIL then NIL else vote.blockID)) rest
      else
        cvFold sb votesNeeded height round (mset cand blockID currentVotes) winner rest

/-- `countVotes(ballotBox)` from src/stake-blockchain.js (lines 325-357):
stake weights come from the current block's `stakeBalances` (`sb`),
`votesNeeded = 2 * totalStake / 3` with JS division modelled exactly
over `ℚ`, and `this.height`/`this.round` filter stale votes. -/
def countVotes (sb : List (Addr × ℤ)) (height round : ℕ)
    (ballotBox : List (Addr × Vote)) : Option String :=
  let totalStake := msumZ sb
  let votesNeeded : ℚ := 2 * (totalStake : ℚ) / 3
  (cvFold sb votesNeeded height round [] none ballotBox).2

/-- Total stake accumulated for blockID `b` by the non-stale votes of a
ballot box: the declarative counterpart of the `candidateBlocks` totals. -/
def totalFor (sb : List (Addr × ℤ)) (height round : ℕ) (b : String)
    (ballotBox : List (Addr × Vote)) : ℤ :=
  (ballotBox.map (fun p =>
    if ¬ p.2.isStale height round = true ∧ p.2.blockID = b
    then (mget sb p.1).getD 0 else 0)).sum

/-- `updateAccumPower(proposerAddr)` from src/stake-block.js (lines
206-222); `updateRoundAccumPower` (src/stake-blockchain.js lines 419-437)
performs the same computation on the round-local copy of the map.
`totalBonded` is the sum accumulated by the `forEach`.  The final
`accumPower.get(proposerAddr)` has no `|| 0` default: when the proposer
has neither an accumPower entry nor bonded stake the JS code computes
`undefined - totalBonded = NaN`; that corrupted outcome is modelled as
`none`. -/
def updateAccumPower (sb ap : List (Addr × ℤ)) (proposerAddr : Addr) :
    Option (List (Addr × ℤ)) :=
  let totalBonded := msumZ sb
  let ap1 := sb.foldl (fun acc p => mset acc p.1 ((mget acc p.1).getD 0 + p.2)) ap
  match mget ap1 proposerAddr with
  | some currentPower => some (mset ap1 proposerAddr (currentPower - totalBonded))
  | none => none

/-- Keys of `unstakingEvents`.  JS `Map` keys are heterogeneous: the keys
written by `unstakeGold` are numbers (`chainLength + UNSTAKE_DELAY`),
while `punishCheater` calls `delete` with an address string; `Map`
equality (SameValueZero) never identifies a number with a string. -/
inductive JsKey where
  | num : ℕ → JsKey
  | str : String → JsKey
deriving DecidableEq, Repr

/-- One entry of an `unstakingEvents` queue: `{clientID, amount}`. -/
structure UnstakingEvent where
  clientID : Addr
  amount : ℤ
deriving DecidableEq, Repr

def UNSTAKE_DELAY : ℕ := 35

/-- The consensus-relevant state of a `StakeBlock` (src/stake-block.js):
liquid balances (from the spartan-gold base block), the staking ledger
maps, and `chainLength` (the height). -/
structure BlockState where
  balances : List (Addr × ℤ)
  stakeBalances : List (Addr × ℤ)
  accumPower : List (Addr × ℤ)
  unstakingEvents : List (JsKey × List UnstakingEvent)
  chainLength : ℕ
deriving DecidableEq, Repr

/-- Modelled from the spec section 6: `balanceOf` of the spartan-gold base
`Block` (not among the provided sources) reads the liquid balance with a
zero default. -/
def balanceOf (b : BlockState) (addr : Addr) : ℤ := (mget b.balances addr).getD 0

/-- `amountGoldStaked(addr)` from src/stake-block.js (lines 166-168). -/
def amountGoldStaked (b : BlockState) (addr : Addr) : ℤ :=
  (mget b.stakeBalances addr).getD 0

/-- `getTotalStake()` from src/stake-block.js (lines 227-233). -/
def getTotalStake (b : BlockState) : ℤ := msumZ b.stakeBalances

/-- `unstakeGold(addr, amountUnstaked)` from src/stake-block.js
(lines 101-106). -/
def unstakeGold (b : BlockState) (addr : Addr) (amountUnstaked : ℤ) : BlockState :=
  let unstakingRound := b.chainLength + UNSTAKE_DELAY
  let q := (mget b.unstakingEvents (JsKey.num unstakingRound)).getD []
  { b with
      unstakingEvents :=
        mset b.unstakingEvents (JsKey.num unstakingRound) (q ++ [⟨addr, amountUnstaked⟩]) }

/-- `handleUnstakingEvents()` from src/stake-block.js (lines 42-55),
invoked by the block constructor and by `rerun` with the block's own
`chainLength`.  For each queued event the source reads
`this.stakeBalances.get(clientID)` with no default and stores
`totalStaked - amount`; when the address is absent this stores
`undefined - amount = NaN`, which is modelled as the corrupted outcome
`none`. -/
def handleUnstakingEvents (b : BlockState) : Option BlockState :=
  match mget b.unstakingEvents (JsKey.num b.chainLength) with
  | none => some b
  | some q =>
    let sbq := q.foldl (fun acc ev =>
      match acc with
      | none => none
      | some sb =>
        match mget sb ev.clientID with
        | none => none
        | some totalStaked => some (mset sb ev.clientID (totalStaked - ev.amount)))
      (some b.stakeBalances)
    match sbq with
    | none => none
    | some sb =>
      some { b with
          stakeBalances := sb
          unstakingEvents := mdel b.unstakingEvents (JsKey.num b.chainLength) }

/-- The evidence guard of `punishCheater` (src/stake-block.js lines
134-136): not duplicates, same author, same height and round, both
signatures valid. -/
def evidenceCheck (msg1 msg2 : Vote) : Bool :=
  msg1.id ≠ msg2.id ∧ msg1.vfrom = msg2.vfrom ∧
    msg1.height = msg2.height ∧ msg1.round = msg2.round ∧
    msg1.hasValidSignature = true ∧ msg2.hasValidSignature = true

/-- `punishCheater(msg1, msg2)` from src/stake-block.js (lines 108-164),
for vote evidence (the proposal.js class is not among the provided
sources; the guard and the ledger effects are identical for proposals).
Note the source's `this.unstakingEvents.delete(cheaterAddr)`: it passes
the address string to a map keyed by heights (numbers).  The slashing
`proportion` (`amountStaked / totalBonded`) and `Math.floor` are modelled
over `ℚ`. -/
def punishCheater (b : BlockState) (msg1 msg2 : Vote) : BlockState :=
  if evidenceCheck msg1 msg2 then
    let cheaterAddr := msg1.vfrom
    let balance := balanceOf b msg1.vfrom
    let stakeAmount := amountGoldStaked b cheaterAddr
    let ap := mdel b.accumPower cheaterAddr
    let sb := mdel b.stakeBalances cheaterAddr
    let ue := mdel b.unstakingEvents (JsKey.str cheaterAddr)
    let bal := mset b.balances cheaterAddr (balance - stakeAmount)
    let totalBonded := msumZ sb
    let bal2 := sb.foldl (fun acc p =>
      mset acc p.1 ((mget acc p.1).getD 0 +
        ⌊(stakeAmount : ℚ) * ((p.2 : ℚ) / (totalBonded : ℚ))⌋)) bal
    { b with
        balances := bal2
        stakeBalances := sb
        accumPower := ap
        unstakingEvents := ue }
  else b

/-- An unstaking transaction as built by `postUnstakingTransaction`
(src/stake-mixin.js lines 66-101); the fields of the
`Blockchain.makeTransaction` call, with `data` flattened. -/
structure UnstakeTx where
  txfrom : Addr
  nonce : ℕ
  pubKey : String
  fee : ℤ
  dataType : String
  amountToUnstake : ℤ
deriving DecidableEq, Repr

/-- The client fields consulted and mutated by the staking mixin. -/
structure ClientState where
  address : Addr
  pubKey : String
  nonce : ℕ
  availableGold : ℤ
  pendingOutgoingTransactions : List UnstakeTx
deriving DecidableEq, Repr

/-- `postUnstakingTransaction(amountToUnstake, fee)` from
src/stake-mixin.js (lines 66-101).  The thrown `Error` is modelled as
`none`; otherwise the built transaction is signed, queued, the nonce is
incremented and the transaction broadcast (signing and broadcast are
external effects). -/
def postUnstakingTransaction (c : ClientState) (amountToUnstake fee : ℤ) :
    Option (UnstakeTx × ClientState) :=
  if fee > c.availableGold then none
  else
    let tx : UnstakeTx := { txfrom := c.address, nonce := c.nonce, pubKey := c.pubKey,
                            fee := fee, dataType := "UNSTAKE",
                            amountToUnstake := amountToUnstake }
    some (tx, { c with
                nonce := c.nonce + 1
                pendingOutgoingTransactions := c.pendingOutgoingTransactions ++ [tx] })

/-- C6: `Vote.isValid(validator)` returns false exactly when the vote's
height is below the validator's height, or the vote's round is below the
validator's round and the vote is not a commit, or the signature check
fails; in all other cases it returns true. -/
theorem vote_isValid_characterization (s : EngineState) (v : Vote) :
    v.isValid s = false ↔
      (v.height < s.height ∨ (v.round < s.round ∧ v.type ≠ COMMIT) ∨
        v.hasValidSignature = false) := by
  unfold Vote.isValid
  by_cases h1 : s.height > v.height
  · simp [h1]
  · by_cases h2 : s.round > v.round ∧ v.type ≠ COMMIT
    · simp [h1, h2]
    · by_cases h3 : v.hasValidSignature
      · simp [h1, h2, h3]
      · simp [h1, h2, h3]

/-- C10: `postUnstakingTransaction` checks only the fee against
`availableGold`; for every `amountToUnstake`, however large, the
transaction is built with that amount, queued, and the nonce incremented,
as long as the fee alone is affordable; when the fee alone is not
affordable it throws. -/
theorem postUnstakingTransaction_no_amount_check (c : ClientState)
    (amountToUnstake fee : ℤ) :
    (fee ≤ c.availableGold →
      postUnstakingTransaction c amountToUnstake fee =
        some ({ txfrom := c.address, nonce := c.nonce, pubKey := c.pubKey,
                fee := fee, dataType := "UNSTAKE",
                amountToUnstake := amountToUnstake },
              { c with
                nonce := c.nonce + 1
                pendingOutgoingTransactions := c.pendingOutgoingTransactions ++
                  [{ txfrom := c.address, nonce := c.nonce, pubKey := c.pubKey,
                     fee := fee, dataType := "UNSTAKE",
                     amountToUnstake := amountToUnstake }] })) ∧
    (c.availableGold < fee → postUnstakingTransaction c amountToUnstake fee = none) := by
  constructor
  · intro hfee
    unfold postUnstakingTransaction
    rw [if_neg (not_lt.mpr hfee)]
  · intro hfee
    unfold postUnstakingTransaction
    rw [if_pos hfee]

/-- Witness for C10: with zero available gold and zero fee, an unstake of
10^30 units is still built, queued and the nonce incremented. -/
theorem postUnstakingTransaction_no_amount_check_witness :
    postUnstakingTransaction
        ⟨"alice", "alice", 0, 0, []⟩ (10 ^ 30) 0 =
      some (⟨"alice", 0, "alice", 0, "UNSTAKE", 10 ^ 30⟩,
            ⟨"alice", "alice", 1, 0, [⟨"alice", 0, "alice", 0, "UNSTAKE", 10 ^ 30⟩]⟩) :=
  (postUnstakingTransaction_no_amount_check ⟨"alice", "alice", 0, 0, []⟩ (10 ^ 30) 0).1
    (by decide)

theorem mget_mset_self {κ α : Type} [DecidableEq κ] (m : List (κ × α)) (k : κ) (v : α) :
    mget (mset m k v) k = some v := by
  induction m with
  | nil => simp [mget, mset]
  | cons p r ih =>
    obtain ⟨a, w⟩ := p
    by_cases h : a = k
    · simp [mset, h, mget]
    · simp [mset, h, mget, ih]

theorem mget_mset_ne {κ α : Type} [DecidableEq κ] (m : List (κ × α)) (k k' : κ) (v : α)
    (h : k' ≠ k) : mget (mset m k v) k' = mget m k' := by
  induction m with
  | nil => simp [mget, mset, Ne.symm h]
  | cons p r ih =>
    obtain ⟨a, w⟩ := p
    by_cases ha : a = k
    · subst ha
      simp [mset, mget, Ne.symm h]
    · simp only [mset, if_neg ha]
      by_cases ha' : a = k'
      · simp [mget, ha']
      · simp [mget, ha', ih]

theorem msum_mset {κ : Type} [DecidableEq κ] (m : List (κ × ℤ)) (k : κ) (v : ℤ) :
    msumZ (mset m k v) = msumZ m - (mget m k).getD 0 + v := by
  induction m with
  | nil => simp [mget, mset, msumZ]
  | cons p r ih =>
    obtain ⟨a, w⟩ := p
    by_cases h : a = k
    · simp [mset, h, mget, msumZ]
      ring
    · simp only [mset, if_neg h, msumZ, List.map_cons, List.sum_cons, mget] at ih ⊢
      rw [ih]
      ring

theorem mem_keys_mset {κ α : Type} [DecidableEq κ] (m : List (κ × α)) (k x : κ) (v : α) :
    x ∈ (mset m k v).map Prod.fst ↔ x ∈ m.map Prod.fst ∨ x = k := by
  induction m with
  | nil => simp [mset]
  | cons p r ih =>
    obtain ⟨a, w⟩ := p
    by_cases h : a = k
    · subst h
      simp [mset]
      tauto
    · simp [mset, h, ih]
      tauto

theorem nodup_keys_mset {κ α : Type} [DecidableEq κ] (m : List (κ × α)) (k : κ) (v : α)
    (hnd : (m.map Prod.fst).Nodup) : ((mset m k v).map Prod.fst).Nodup := by
  induction m with
  | nil => simp [mset]
  | cons p r ih =>
    obtain ⟨a, w⟩ := p
    simp only [List.map_cons, List.nodup_cons] at hnd
    by_cases h : a = k
    · subst h
      simpa [mset] using hnd
    · simp only [mset, if_neg h, List.map_cons, List.nodup_cons]
      refine ⟨?_, ih hnd.2⟩
      intro hmem
      rcases (mem_keys_mset r k a v).mp hmem with h1 | h1
      · exact hnd.1 h1
      · exact h h1

theorem mget_mdel_ne {κ α : Type} [DecidableEq κ] (m : List (κ × α)) (k k' : κ)
    (h : k' ≠ k) : mget (mdel m k) k' = mget m k' := by
  induction m with
  | nil => simp [mdel]
  | cons p r ih =>
    obtain ⟨a, w⟩ := p
    by_cases ha : a = k
    · subst ha
      simp [mdel, mget, Ne.symm h]
    · simp only [mdel, if_neg ha]
      by_cases ha' : a = k'
      · simp [mget, ha']
      · simp [mget, ha', ih]

theorem msum_mdel {κ : Type} [DecidableEq κ] (m : List (κ × ℤ)) (k : κ) :
    msumZ m = (mget m k).getD 0 + msumZ (mdel m k) := by
  induction m with
  | nil => simp [mget, mdel, msumZ]
  | cons p r ih =>
    obtain ⟨a, w⟩ := p
    by_cases h : a = k
    · simp [mget, mdel, h, msumZ]
    · simp only [mget, mdel, if_neg h, msumZ, List.map_cons, List.sum_cons] at ih ⊢
      omega

theorem mem_mdel {κ α : Type} [DecidableEq κ] (m : List (κ × α)) (k : κ) (q : κ × α)
    (h : q ∈ mdel m k) : q ∈ m := by
  induction m with
  | nil => simp [mdel] at h
  | cons p r ih =>
    by_cases ha : p.1 = k
    · obtain ⟨a, w⟩ := p
      simp only [mdel] at h
      rw [if_pos ha] at h
      exact List.mem_cons_of_mem _ h
    · obtain ⟨a, w⟩ := p
      simp only [mdel] at h
      rw [if_neg ha] at h
      rcases List.mem_cons.mp h with h1 | h1
      · exact h1 ▸ List.mem_cons_self _ _
      · exact List.mem_cons_of_mem _ (ih h1)

theorem keys_mdel_sublist {κ α : Type} [DecidableEq κ] (m : List (κ × α)) (k : κ) :
    ((mdel m k).map Prod.fst).Sublist (m.map Prod.fst) := by
  induction m with
  | nil => simp [mdel]
  | cons p r ih =>
    obtain ⟨a, w⟩ := p
    by_cases h : a = k
    · simp only [mdel, if_pos h, List.map_cons]
      exact (List.sublist_cons_self _ _)
    · simp only [mdel, if_neg h, List.map_cons]
      exact ih.cons₂ a

theorem nodup_keys_mdel {κ α : Type} [DecidableEq κ] (m : List (κ × α)) (k : κ)
    (hnd : (m.map Prod.fst).Nodup) : ((mdel m k).map Prod.fst).Nodup :=
  hnd.sublist (keys_mdel_sublist m k)

theorem not_mem_keys_mdel {κ α : Type} [DecidableEq κ] (m : List (κ × α)) (k : κ)
    (hnd : (m.map Prod.fst).Nodup) : k ∉ (mdel m k).map Prod.fst := by
  induction m with
  | nil => simp [mdel]
  | cons p r ih =>
    obtain ⟨a, w⟩ := p
    simp only [List.map_cons, List.nodup_cons] at hnd
    by_cases h : a = k
    · subst h
      simp only [mdel, if_pos rfl]
      exact hnd.1
    · simp only [mdel, if_neg h, List.map_cons]
      intro hmem
      rcases List.mem_cons.mp hmem with h1 | h1
      · exact h (h1.symm)
      · exact ih hnd.2 h1

theorem mdel_mset_none {κ α : Type} [DecidableEq κ] (m : List (κ × α)) (k : κ) (v : α)
    (h : mget m k = none) : mdel (mset m k v) k = m := by
  induction m with
  | nil => simp [mset, mdel]
  | cons p r ih =>
    obtain ⟨a, w⟩ := p
    by_cases ha : a = k
    · simp [mget, ha] at h
    · simp only [mget, if_neg ha] at h
      simp [mset, mdel, ha, ih h]

theorem mgetD_nonneg (m : List (Addr × ℤ)) (k : Addr) (hnn : ∀ q ∈ m, 0 ≤ q.2) :
    0 ≤ (mget m k).getD 0 := by
  induction m with
  | nil => simp [mget]
  | cons p r ih =>
    obtain ⟨a, w⟩ := p
    by_cases h : a = k
    · simpa [mget, h] using hnn (a, w) (List.mem_cons_self _ _)
    · simp only [mget, if_neg h]
      exact ih (fun q hq => hnn q (List.mem_cons_of_mem _ hq))

theorem msum_nonneg (m : List (Addr × ℤ)) (hnn : ∀ q ∈ m, 0 ≤ q.2) : 0 ≤ msumZ m := by
  apply List.sum_nonneg
  intro x hx
  rcases List.mem_map.mp hx with ⟨q, hq, rfl⟩
  exact hnn q hq

theorem foldl_msetAdd_spec (g : Addr × ℤ → ℤ) :
    ∀ (l m : List (Addr × ℤ)), (l.map Prod.fst).Nodup →
      (∀ p ∈ l,
        mget (l.foldl (fun acc q => mset acc q.1 ((mget acc q.1).getD 0 + g q)) m) p.1
          = some ((mget m p.1).getD 0 + g p)) ∧
      (∀ k, k ∉ l.map Prod.fst →
        mget (l.foldl (fun acc q => mset acc q.1 ((mget acc q.1).getD 0 + g q)) m) k
          = mget m k) ∧
      msumZ (l.foldl (fun acc q => mset acc q.1 ((mget acc q.1).getD 0 + g q)) m)
        = msumZ m + (l.map g).sum := by
  intro l
  induction l with
  | nil =>
    intro m _
    refine ⟨by simp, by simp [List.foldl], by simp [List.foldl]⟩
  | cons q rest ih =>
    intro m hnd
    simp only [List.map_cons, List.nodup_cons] at hnd
    obtain ⟨hq, hnd'⟩ := hnd
    obtain ⟨ih1, ih2, ih3⟩ := ih (mset m q.1 ((mget m q.1).getD 0 + g q)) hnd'
    refine ⟨?_, ?_, ?_⟩
    · intro p hp
      rcases List.mem_cons.mp hp with rfl | hp'
      · rw [List.foldl_cons, ih2 p.1 hq, mget_mset_self]
      · have hne : p.1 ≠ q.1 := by
          intro he
          exact hq (he ▸ List.mem_map_of_mem Prod.fst hp')
        rw [List.foldl_cons, ih1 p hp', mget_mset_ne _ _ _ _ hne]
    · intro k hk
      simp only [List.map_cons, List.mem_cons, not_or] at hk
      rw [List.foldl_cons, ih2 k hk.2, mget_mset_ne _ _ _ _ hk.1]
    · rw [List.foldl_cons, ih3, msum_mset]
      simp only [List.map_cons, List.sum_cons]
      ring

/-- C2: a call to `updateAccumPower` succeeds whenever the proposer has an
accumPower entry or bonded stake; it adds `stakeBalances[a]` to
`accumPower[a]` for each bonded validator `a` and subtracts the total
bonded stake from the proposer's entry, so the sum of `accumPower` over
all entries is unchanged.  (`updateRoundAccumPower` performs the same
computation on the round-local copy.) -/
theorem updateAccumPower_total_conserved (sb ap : List (Addr × ℤ)) (p a : Addr) (sa : ℤ)
    (hnd : (sb.map Prod.fst).Nodup)
    (hp : (mget ap p).isSome = true ∨ p ∈ sb.map Prod.fst) :
    (updateAccumPower sb ap p).isSome = true ∧
    msumZ ((updateAccumPower sb ap p).getD []) = msumZ ap ∧
    ((a, sa) ∈ sb → a ≠ p →
      mget ((updateAccumPower sb ap p).getD []) a = some ((mget ap a).getD 0 + sa)) := by
  obtain ⟨h1, h2, h3⟩ := foldl_msetAdd_spec (fun q => q.2) sb ap hnd
  have hsome : ∃ c,
      mget (sb.foldl (fun acc q => mset acc q.1 ((mget acc q.1).getD 0 + q.2)) ap) p
        = some c := by
    rcases hp with hp | hp
    · by_cases hmem : p ∈ sb.map Prod.fst
      · rcases List.mem_map.mp hmem with ⟨q, hqmem, hqfst⟩
        exact ⟨_, hqfst ▸ h1 q hqmem⟩
      · rcases Option.isSome_iff_exists.mp hp with ⟨c, hc⟩
        exact ⟨c, (h2 p hmem).trans hc⟩
    · rcases List.mem_map.mp hp with ⟨q, hqmem, hqfst⟩
      exact ⟨_, hqfst ▸ h1 q hqmem⟩
  obtain ⟨c, hc⟩ := hsome
  have hupd : updateAccumPower sb ap p
      = some (mset
          (sb.foldl (fun acc q => mset acc q.1 ((mget acc q.1).getD 0 + q.2)) ap)
          p (c - msumZ sb)) := by
    simp only [updateAccumPower, hc]
  refine ⟨by rw [hupd]; rfl, ?_, ?_⟩
  · rw [hupd]
    simp only [Option.getD_some]
    rw [msum_mset, hc]
    simp only [Option.getD_some]
    have hmapeq : (sb.map (fun q => q.2)).sum = msumZ sb := rfl
    rw [h3, hmapeq]
    ring
  · intro hmem hne
    rw [hupd]
    simp only [Option.getD_some]
    rw [mget_mset_ne _ _ _ _ hne]
    exact h1 (a, sa) hmem

/-- Witness for C2: two bonded validators with stakes 5 and 3, accumPower
10 and 2; after the call for proposer "a" the total accumPower is still
12 and "b" gained its stake. -/
theorem updateAccumPower_total_conserved_witness :
    (updateAccumPower [("a", 5), ("b", 3)] [("a", 10), ("b", 2)] "a").isSome = true ∧
    msumZ ((updateAccumPower [("a", 5), ("b", 3)] [("a", 10), ("b", 2)] "a").getD [])
      = msumZ [("a", 10), ("b", 2)] ∧
    mget ((updateAccumPower [("a", 5), ("b", 3)] [("a", 10), ("b", 2)] "a").getD []) "b"
      = some ((mget [("a", 10), ("b", 2)] "b").getD 0 + 3) := by
  have h := updateAccumPower_total_conserved [("a", 5), ("b", 3)] [("a", 10), ("b", 2)]
    "a" "b" 3 (by decide) (by decide)
  exact ⟨h.1, h.2.1, h.2.2 (by decide) (by decide)⟩

theorem fresherThan_same_height_round (v w : Vote) (hh : v.height = w.height)
    (hr : v.round = w.round) : v.fresherThan w = false := by
  unfold Vote.fresherThan
  rw [hh, hr]
  simp

theorem fresherThan_asymm (v w : Vote) (h : v.fresherThan w = true) :
    w.fresherThan v = false := by
  unfold Vote.fresherThan at *
  split_ifs at *
  all_goals simp_all
  all_goals omega

theorem not_fresher_same (v w : Vote) (h1 : v.fresherThan w = false)
    (h2 : w.fresherThan v = false) : v.height = w.height ∧ v.round = w.round := by
  unfold Vote.fresherThan at *
  split_ifs at *
  all_goals simp_all
  all_goals omega

theorem verifyAndVote_fst_cases (s : EngineState) (vote : Vote)
    (bb : List (Addr × Vote)) :
    (verifyAndVote s vote bb).1 = bb ∨
      (verifyAndVote s vote bb).1 = mset bb vote.vfrom vote := by
  unfold verifyAndVote
  split
  · exact Or.inl rfl
  · split
    · exact Or.inr rfl
    · split_ifs <;> simp

/-- C5: `verifyAndVote` keeps at most one vote per validator (the ballot
box keys stay duplicate-free), and for a valid incoming vote: with no
existing entry the vote is stored; a vote `fresherThan` the existing
entry (greater (height, round) lexicographically) replaces it; a vote
the existing entry is `fresherThan` is dropped; with equal (height,
round) a duplicate id is dropped, and a different id posts an evidence
transaction naming both votes (and stores the new vote). -/
theorem verifyAndVote_spec (s : EngineState) (vote cur : Vote)
    (bb : List (Addr × Vote))
    (hv : vote.isValid s = true) (hnd : (bb.map Prod.fst).Nodup) :
    ((verifyAndVote s vote bb).1.map Prod.fst).Nodup ∧
    (mget bb vote.vfrom = none →
      verifyAndVote s vote bb = (mset bb vote.vfrom vote, none)) ∧
    (mget bb vote.vfrom = some cur → vote.fresherThan cur = true →
      verifyAndVote s vote bb = (mset bb vote.vfrom vote, none)) ∧
    (mget bb vote.vfrom = some cur → cur.fresherThan vote = true →
      verifyAndVote s vote bb = (bb, none)) ∧
    (mget bb vote.vfrom = some cur → cur.height = vote.height →
      cur.round = vote.round → cur.id = vote.id →
      verifyAndVote s vote bb = (bb, none)) ∧
    (mget bb vote.vfrom = some cur → cur.height = vote.height →
      cur.round = vote.round → cur.id ≠ vote.id →
      verifyAndVote s vote bb =
        (mset bb vote.vfrom vote, some (vote.vfrom, cur, vote))) := by
  refine ⟨?_, ?_, ?_, ?_, ?_, ?_⟩
  · rcases verifyAndVote_fst_cases s vote bb with h | h
    · rw [h]; exact hnd
    · rw [h]; exact nodup_keys_mset _ _ _ hnd
  · intro hm
    simp [verifyAndVote, hv, hm]
  · intro hm hf
    simp [verifyAndVote, hv, hm, hf]
  · intro hm hf
    have hf' := fresherThan_asymm cur vote hf
    simp [verifyAndVote, hv, hm, hf, hf']
  · intro hm hh hr hid
    have f1 : vote.fresherThan cur = false :=
      fresherThan_same_height_round vote cur hh.symm hr.symm
    have f2 : cur.fresherThan vote = false :=
      fresherThan_same_height_round cur vote hh hr
    simp [verifyAndVote, hv, hm, f1, f2, hid]
  · intro hm hh hr hid
    have f1 : vote.fresherThan cur = false :=
      fresherThan_same_height_round vote cur hh.symm hr.symm
    have f2 : cur.fresherThan vote = false :=
      fresherThan_same_height_round cur vote hh hr
    simp [verifyAndVote, hv, hm, f1, f2, hid]

/-- Witness for C5: a validator already has a prevote for block "X" at
(1,1) stored; a second valid prevote from the same validator for "Y" at
(1,1) triggers the evidence branch naming both votes. -/
theorem verifyAndVote_spec_witness :
    Vote.isValid ⟨"v", 1, 1, "PREVOTE", "Y", "v",
        some ("v", ⟨"v", 1, 1, "PREVOTE", "Y", "v"⟩)⟩ ⟨1, 1⟩ = true ∧
    verifyAndVote ⟨1, 1⟩
        ⟨"v", 1, 1, "PREVOTE", "Y", "v", some ("v", ⟨"v", 1, 1, "PREVOTE", "Y", "v"⟩)⟩
        [("v", ⟨"v", 1, 1, "PREVOTE", "X", "v",
            some ("v", ⟨"v", 1, 1, "PREVOTE", "X", "v"⟩)⟩)] =
      ([("v", ⟨"v", 1, 1, "PREVOTE", "Y", "v",
            some ("v", ⟨"v", 1, 1, "PREVOTE", "Y", "v"⟩)⟩)],
        some ("v",
          ⟨"v", 1, 1, "PREVOTE", "X", "v", some ("v", ⟨"v", 1, 1, "PREVOTE", "X", "v"⟩)⟩,
          ⟨"v", 1, 1, "PREVOTE", "Y", "v", some ("v", ⟨"v", 1, 1, "PREVOTE", "Y", "v"⟩)⟩)) := by
  refine ⟨by decide, ?_⟩
  exact (verifyAndVote_spec ⟨1, 1⟩
    ⟨"v", 1, 1, "PREVOTE", "Y", "v", some ("v", ⟨"v", 1, 1, "PREVOTE", "Y", "v"⟩)⟩
    ⟨"v", 1, 1, "PREVOTE", "X", "v", some ("v", ⟨"v", 1, 1, "PREVOTE", "X", "v"⟩)⟩
    [("v", ⟨"v", 1, 1, "PREVOTE", "X", "v", some ("v", ⟨"v", 1, 1, "PREVOTE", "X", "v"⟩)⟩)]
    (by decide) (by decide)).2.2.2.2.2 (by decide) (by decide) (by decide) (by decide)

/-- C7: applying an UNSTAKE transaction at height `h` appends
`{addr, amount}` to `unstakingEvents[h + UNSTAKE_DELAY]` (with
`UNSTAKE_DELAY = 35`) and leaves `stakeBalances` unchanged; constructing
a block at a height with no queued events changes nothing, and
constructing the block at height `h + UNSTAKE_DELAY` subtracts the
amount from `stakeBalances[addr]` and deletes the queue entry for that
height. -/
theorem unstake_delay_effect (b : BlockState) (addr : Addr) (amt : ℤ) (g : ℕ) (sv : ℤ)
    (hq : mget b.unstakingEvents (JsKey.num (b.chainLength + UNSTAKE_DELAY)) = none)
    (hg : mget (unstakeGold b addr amt).unstakingEvents (JsKey.num g) = none)
    (hs : mget b.stakeBalances addr = some sv) :
    UNSTAKE_DELAY = 35 ∧
    (unstakeGold b addr amt).stakeBalances = b.stakeBalances ∧
    mget (unstakeGold b addr amt).unstakingEvents
        (JsKey.num (b.chainLength + UNSTAKE_DELAY)) = some [⟨addr, amt⟩] ∧
    handleUnstakingEvents { unstakeGold b addr amt with chainLength := g }
      = some { unstakeGold b addr amt with chainLength := g } ∧
    handleUnstakingEvents
        { unstakeGold b addr amt with chainLength := b.chainLength + UNSTAKE_DELAY }
      = some { b with
          chainLength := b.chainLength + UNSTAKE_DELAY
          stakeBalances := mset b.stakeBalances addr (sv - amt) } := by
  have h3 : mget (unstakeGold b addr amt).unstakingEvents
      (JsKey.num (b.chainLength + UNSTAKE_DELAY)) = some [⟨addr, amt⟩] := by
    simp [unstakeGold, mget_mset_self, hq]
  have hdel : mdel (unstakeGold b addr amt).unstakingEvents
      (JsKey.num (b.chainLength + UNSTAKE_DELAY)) = b.unstakingEvents := by
    simp only [unstakeGold]
    exact mdel_mset_none _ _ _ hq
  have hsb : (unstakeGold b addr amt).stakeBalances = b.stakeBalances := rfl
  refine ⟨rfl, rfl, h3, ?_, ?_⟩
  · simp [handleUnstakingEvents, hg]
  · simp [handleUnstakingEvents, h3, hsb, hs, hdel]
    exact ⟨rfl, rfl⟩

/-- Witness for C7: with stake 50 at height 2, an unstake of 10 is queued
at height 37 = 2 + 35, an intervening height (3) changes nothing, and at
height 37 the stake drops to 40 and the queue entry is gone. -/
theorem unstake_delay_effect_witness :
    UNSTAKE_DELAY = 35 ∧
    (unstakeGold ⟨[], [("a", 50)], [], [], 2⟩ "a" 10).stakeBalances =
      (⟨[], [("a", 50)], [], [], 2⟩ : BlockState).stakeBalances ∧
    mget (unstakeGold ⟨[], [("a", 50)], [], [], 2⟩ "a" 10).unstakingEvents
        (JsKey.num (2 + UNSTAKE_DELAY)) = some [⟨"a", 10⟩] ∧
    handleUnstakingEvents
        { unstakeGold ⟨[], [("a", 50)], [], [], 2⟩ "a" 10 with chainLength := 3 }
      = some { unstakeGold ⟨[], [("a", 50)], [], [], 2⟩ "a" 10 with chainLength := 3 } ∧
    handleUnstakingEvents
        { unstakeGold ⟨[], [("a", 50)], [], [], 2⟩ "a" 10 with
            chainLength := 2 + UNSTAKE_DELAY }
      = some { (⟨[], [("a", 50)], [], [], 2⟩ : BlockState) with
          chainLength := 2 + UNSTAKE_DELAY
          stakeBalances := mset [("a", 50)] "a" (50 - 10) } :=
  unstake_delay_effect ⟨[], [("a", 50)], [], [], 2⟩ "a" 10 3 50
    (by decide) (by decide) (by decide)

/-- C8: when an unstaking event matures for an address that is no longer
in `stakeBalances`, `handleUnstakingEvents` does NOT silently skip it:
the source computes `stakeBalances.get(clientID) - amount` with the get
returning `undefined`, storing `NaN` into `stakeBalances` (the corrupted
outcome is `none` in this embedding); in particular the result is not
the claimed untouched ledger with the queue entry dropped. -/
theorem handleUnstakingEvents_missing_addr_nan :
    handleUnstakingEvents ⟨[], [("v", 20)], [], [(JsKey.num 5, [⟨"x", 7⟩])], 5⟩ = none ∧
    handleUnstakingEvents ⟨[], [("v", 20)], [], [(JsKey.num 5, [⟨"x", 7⟩])], 5⟩ ≠
      some ⟨[], [("v", 20)], [], [], 5⟩ := by
  decide

/-- C3: on valid vote evidence (different ids, same author "c", same
height and round, valid signatures) `punishCheater` removes the cheater
from `stakeBalances` and `accumPower` and reduces the liquid balance by
the bonded stake (30), but the pending `unstakingEvents` entry naming
the cheater is NOT removed: `unstakingEvents.delete(cheaterAddr)` passes
the address string to a map keyed by heights (numbers) and is a no-op. -/
theorem punishCheater_keeps_cheater_unstaking_events :
    (punishCheater
        ⟨[("c", 100), ("v", 50)], [("c", 30), ("v", 20)], [("c", 3), ("v", 2)],
          [(JsKey.num 40, [⟨"c", 10⟩])], 5⟩
        ⟨"c", 1, 1, "PREVOTE", "X", "c", some ("c", ⟨"c", 1, 1, "PREVOTE", "X", "c"⟩)⟩
        ⟨"c", 1, 1, "PREVOTE", "Y", "c", some ("c", ⟨"c", 1, 1, "PREVOTE", "Y", "c"⟩)⟩
      ).stakeBalances = [("v", 20)] ∧
    (punishCheater
        ⟨[("c", 100), ("v", 50)], [("c", 30), ("v", 20)], [("c", 3), ("v", 2)],
          [(JsKey.num 40, [⟨"c", 10⟩])], 5⟩
        ⟨"c", 1, 1, "PREVOTE", "X", "c", some ("c", ⟨"c", 1, 1, "PREVOTE", "X", "c"⟩)⟩
        ⟨"c", 1, 1, "PREVOTE", "Y", "c", some ("c", ⟨"c", 1, 1, "PREVOTE", "Y", "c"⟩)⟩
      ).accumPower = [("v", 2)] ∧
    balanceOf
      (punishCheater
        ⟨[("c", 100), ("v", 50)], [("c", 30), ("v", 20)], [("c", 3), ("v", 2)],
          [(JsKey.num 40, [⟨"c", 10⟩])], 5⟩
        ⟨"c", 1, 1, "PREVOTE", "X", "c", some ("c", ⟨"c", 1, 1, "PREVOTE", "X", "c"⟩)⟩
        ⟨"c", 1, 1, "PREVOTE", "Y", "c", some ("c", ⟨"c", 1, 1, "PREVOTE", "Y", "c"⟩)⟩)
      "c" = 100 - 30 ∧
    (punishCheater
        ⟨[("c", 100), ("v", 50)], [("c", 30), ("v", 20)], [("c", 3), ("v", 2)],
          [(JsKey.num 40, [⟨"c", 10⟩])], 5⟩
        ⟨"c", 1, 1, "PREVOTE", "X", "c", some ("c", ⟨"c", 1, 1, "PREVOTE", "X", "c"⟩)⟩
        ⟨"c", 1, 1, "PREVOTE", "Y", "c", some ("c", ⟨"c", 1, 1, "PREVOTE", "Y", "c"⟩)⟩
      ).unstakingEvents = [(JsKey.num 40, [⟨"c", 10⟩])] := by
  decide

theorem cast_msum (l : List (Addr × ℤ)) :
    ((msumZ l : ℤ) : ℚ) = (l.map (fun p => ((p.2 : ℤ) : ℚ))).sum := by
  induction l with
  | nil => simp [msumZ]
  | cons p r ih =>
    simp only [msumZ, List.map_cons, List.sum_cons] at ih ⊢
    rw [Int.cast_add, ih]

theorem mul_div_map_sum (S T : ℚ) (l : List (Addr × ℤ)) :
    (l.map (fun p => S * (p.2 : ℚ) / T)).sum
      = S / T * (l.map (fun p => ((p.2 : ℤ) : ℚ))).sum := by
  induction l with
  | nil => simp
  | cons p r ih =>
    simp only [List.map_cons, List.sum_cons, ih]
    ring

theorem sum_floor_le_sum (f : Addr × ℤ → ℚ) (l : List (Addr × ℤ)) :
    (((l.map (fun p => ⌊f p⌋)).sum : ℤ) : ℚ) ≤ (l.map f).sum := by
  induction l with
  | nil => simp
  | cons p r ih =>
    simp only [List.map_cons, List.sum_cons]
    push_cast
    push_cast at ih
    have hfl := Int.floor_le (f p)
    linarith

theorem sum_floor_shares_le (l : List (Addr × ℤ)) (S : ℤ)
    (hT : 0 < msumZ l) :
    (l.map (fun p => ⌊(S : ℚ) * (p.2 : ℚ) / (msumZ l : ℚ)⌋)).sum ≤ S := by
  have hTQ : (0 : ℚ) < (msumZ l : ℚ) := by exact_mod_cast hT
  have step1 := sum_floor_le_sum (fun p => (S : ℚ) * (p.2 : ℚ) / (msumZ l : ℚ)) l
  have step2 : (l.map (fun p => (S : ℚ) * (p.2 : ℚ) / (msumZ l : ℚ))).sum = (S : ℚ) := by
    rw [mul_div_map_sum, ← cast_msum, div_mul_cancel₀]
    exact ne_of_gt hTQ
  rw [step2] at step1
  exact_mod_cast step1

/-- C4: on valid evidence, slashing credits each remaining bonded
validator with stake `stake_i` exactly
`floor(S * stake_i / totalBonded)` where `S` is the cheater's seized
stake and `totalBonded` the sum of the remaining `stakeBalances`; the
distributed shares sum to at most `S`; and no other address's balance
changes (the floor residue is credited to no one). -/
theorem punishCheater_redistribution (b : BlockState) (m1 m2 : Vote)
    (a other : Addr) (sval : ℤ)
    (hev : evidenceCheck m1 m2 = true)
    (hnd : (b.stakeBalances.map Prod.fst).Nodup)
    (hT : 0 < msumZ (mdel b.stakeBalances m1.vfrom)) :
    ((a, sval) ∈ mdel b.stakeBalances m1.vfrom →
      balanceOf (punishCheater b m1 m2) a
        = balanceOf b a
          + ⌊(amountGoldStaked b m1.vfrom : ℚ) * (sval : ℚ)
              / (msumZ (mdel b.stakeBalances m1.vfrom) : ℚ)⌋) ∧
    ((mdel b.stakeBalances m1.vfrom).map (fun p =>
        ⌊(amountGoldStaked b m1.vfrom : ℚ) * (p.2 : ℚ)
            / (msumZ (mdel b.stakeBalances m1.vfrom) : ℚ)⌋)).sum
      ≤ amountGoldStaked b m1.vfrom ∧
    (other ∉ (mdel b.stakeBalances m1.vfrom).map Prod.fst → other ≠ m1.vfrom →
      balanceOf (punishCheater b m1 m2) other = balanceOf b other) := by
  have hbal : (punishCheater b m1 m2).balances
      = (mdel b.stakeBalances m1.vfrom).foldl
          (fun acc p => mset acc p.1 ((mget acc p.1).getD 0 +
            ⌊(amountGoldStaked b m1.vfrom : ℚ) *
              ((p.2 : ℚ) / (msumZ (mdel b.stakeBalances m1.vfrom) : ℚ))⌋))
          (mset b.balances m1.vfrom
            (balanceOf b m1.vfrom - amountGoldStaked b m1.vfrom)) := by
    unfold punishCheater
    rw [if_pos hev]
  obtain ⟨f1, f2, f3⟩ := foldl_msetAdd_spec
    (fun p => ⌊(amountGoldStaked b m1.vfrom : ℚ) *
        ((p.2 : ℚ) / (msumZ (mdel b.stakeBalances m1.vfrom) : ℚ))⌋)
    (mdel b.stakeBalances m1.vfrom)
    (mset b.balances m1.vfrom (balanceOf b m1.vfrom - amountGoldStaked b m1.vfrom))
    (nodup_keys_mdel _ _ hnd)
  have hcnot : m1.vfrom ∉ (mdel b.stakeBalances m1.vfrom).map Prod.fst :=
    not_mem_keys_mdel _ _ hnd
  refine ⟨?_, ?_, ?_⟩
  · intro ha
    have hane : a ≠ m1.vfrom := fun he => hcnot (he ▸ List.mem_map_of_mem Prod.fst ha)
    have h1 := f1 (a, sval) ha
    dsimp only at h1
    unfold balanceOf
    rw [hbal, h1]
    simp only [Option.getD_some]
    rw [mget_mset_ne _ _ _ _ hane, mul_div_assoc]
  · have hshare : ((mdel b.stakeBalances m1.vfrom).map (fun p =>
        ⌊(amountGoldStaked b m1.vfrom : ℚ) * (p.2 : ℚ)
            / (msumZ (mdel b.stakeBalances m1.vfrom) : ℚ)⌋)).sum
        ≤ amountGoldStaked b m1.vfrom := by
      exact sum_floor_shares_le _ _ hT
    exact hshare
  · intro hoth hne
    unfold balanceOf
    rw [hbal, f2 other hoth, mget_mset_ne _ _ _ _ hne]

/-- Witness for C4: cheater "c" with stake 30 is slashed; remaining
validators "v" (stake 20) and "w" (stake 10) split 30 bonded coins with
floor shares 20 and 10; address "z" outside the validator set gets
nothing. -/
theorem punishCheater_redistribution_witness :
    balanceOf (punishCheater
        ⟨[("c", 100), ("v", 50), ("w", 50)], [("c", 30), ("v", 20), ("w", 10)],
          [("c", 3)], [], 5⟩
        ⟨"c", 1, 1, "PREVOTE", "X", "c", some ("c", ⟨"c", 1, 1, "PREVOTE", "X", "c"⟩)⟩
        ⟨"c", 1, 1, "PREVOTE", "Y", "c", some ("c", ⟨"c", 1, 1, "PREVOTE", "Y", "c"⟩)⟩) "v"
      = balanceOf
          (⟨[("c", 100), ("v", 50), ("w", 50)], [("c", 30), ("v", 20), ("w", 10)],
            [("c", 3)], [], 5⟩ : BlockState) "v"
        + ⌊(amountGoldStaked
            (⟨[("c", 100), ("v", 50), ("w", 50)], [("c", 30), ("v", 20), ("w", 10)],
              [("c", 3)], [], 5⟩ : BlockState) "c" : ℚ) * ((20 : ℤ) : ℚ)
            / (msumZ (mdel [("c", 30), ("v", 20), ("w", 10)] "c") : ℚ)⌋ ∧
    ((mdel [("c", 30), ("v", 20), ("w", 10)] "c").map (fun p =>
        ⌊(amountGoldStaked
            (⟨[("c", 100), ("v", 50), ("w", 50)], [("c", 30), ("v", 20), ("w", 10)],
              [("c", 3)], [], 5⟩ : BlockState) "c" : ℚ) * (p.2 : ℚ)
            / (msumZ (mdel [("c", 30), ("v", 20), ("w", 10)] "c") : ℚ)⌋)).sum
      ≤ amountGoldStaked
          (⟨[("c", 100), ("v", 50), ("w", 50)], [("c", 30), ("v", 20), ("w", 10)],
            [("c", 3)], [], 5⟩ : BlockState) "c" ∧
    balanceOf (punishCheater
        ⟨[("c", 100), ("v", 50), ("w", 50)], [("c", 30), ("v", 20), ("w", 10)],
          [("c", 3)], [], 5⟩
        ⟨"c", 1, 1, "PREVOTE", "X", "c", some ("c", ⟨"c", 1, 1, "PREVOTE", "X", "c"⟩)⟩
        ⟨"c", 1, 1, "PREVOTE", "Y", "c", some ("c", ⟨"c", 1, 1, "PREVOTE", "Y", "c"⟩)⟩) "z"
      = balanceOf
          (⟨[("c", 100), ("v", 50), ("w", 50)], [("c", 30), ("v", 20), ("w", 10)],
            [("c", 3)], [], 5⟩ : BlockState) "z" := by
  have h := punishCheater_redistribution
    ⟨[("c", 100), ("v", 50), ("w", 50)], [("c", 30), ("v", 20), ("w", 10)],
      [("c", 3)], [], 5⟩
    ⟨"c", 1, 1, "PREVOTE", "X", "c", some ("c", ⟨"c", 1, 1, "PREVOTE", "X", "c"⟩)⟩
    ⟨"c", 1, 1, "PREVOTE", "Y", "c", some ("c", ⟨"c", 1, 1, "PREVOTE", "Y", "c"⟩)⟩
    "v" "z" 20 (by decide) (by decide) (by decide)
  exact ⟨h.1 (by decide), h.2.1, h.2.2 (by decide) (by decide)⟩

theorem nil_ite (x : String) : (if x = NIL then NIL else x) = x := by
  split_ifs with h
  · exact h.symm
  · rfl

theorem totalFor_cons (sb : List (Addr × ℤ)) (h r : ℕ) (b : String)
    (p : Addr × Vote) (rest : List (Addr × Vote)) :
    totalFor sb h r b (p :: rest)
      = (if ¬ p.2.isStale h r = true ∧ p.2.blockID = b
          then (mget sb p.1).getD 0 else 0) + totalFor sb h r b rest := by
  simp [totalFor]

theorem totalFor_nonneg (sb : List (Addr × ℤ)) (h r : ℕ) (b : String)
    (l : List (Addr × Vote)) (hnn : ∀ q ∈ sb, 0 ≤ q.2) :
    0 ≤ totalFor sb h r b l := by
  induction l with
  | nil => simp [totalFor]
  | cons p rest ih =>
    rw [totalFor_cons]
    have := mgetD_nonneg sb p.1 hnn
    split_ifs <;> linarith

theorem cvFold_some_exceeds (sb : List (Addr × ℤ)) (needed : ℚ) (h r : ℕ)
    (hnn : ∀ q ∈ sb, 0 ≤ q.2) :
    ∀ (l : List (Addr × Vote)) (cand : List (String × ℤ)) (w : Option String)
      (v : String),
      (cvFold sb needed h r cand w l).2 = some v →
      needed < (((mget cand v).getD 0 + totalFor sb h r v l : ℤ) : ℚ) ∨ w = some v := by
  intro l
  induction l with
  | nil =>
    intro cand w v hw
    right
    simpa [cvFold] using hw
  | cons p rest ih =>
    intro cand w v hw
    simp only [cvFold] at hw
    by_cases hst : p.2.isStale h r
    · rw [if_pos hst] at hw
      rcases ih _ _ _ hw with h1 | h1
      · left
        rw [totalFor_cons, if_neg (by simp [hst])]
        simpa using h1
      · right
        exact h1
    · rw [if_neg hst] at hw
      by_cases hgt :
          ((((mget cand p.2.blockID).getD 0 + (mget sb p.1).getD 0 : ℤ) : ℚ))
            > needed
      · rw [if_pos hgt, nil_ite] at hw
        rcases ih _ _ _ hw with h1 | h1
        · left
          by_cases hv : v = p.2.blockID
          · rw [hv, mget_mset_self] at h1
            rw [totalFor_cons, if_pos ⟨by simp [hst], hv.symm⟩, hv]
            simp only [Option.getD_some] at h1
            push_cast at h1 ⊢
            linarith
          · rw [mget_mset_ne _ _ _ _ hv] at h1
            rw [totalFor_cons, if_neg (by intro hcc; exact hv hcc.2.symm)]
            simpa using h1
        · left
          injection h1 with h1
          subst h1
          rw [totalFor_cons, if_pos ⟨by simp [hst], rfl⟩]
          have htr := totalFor_nonneg sb h r p.2.blockID rest hnn
          push_cast at hgt ⊢
          have h0 : (0 : ℚ) ≤ ((totalFor sb h r p.2.blockID rest : ℤ) : ℚ) := by
            exact_mod_cast htr
          linarith
      · rw [if_neg hgt] at hw
        rcases ih _ _ _ hw with h1 | h1
        · left
          by_cases hv : v = p.2.blockID
          · rw [hv, mget_mset_self] at h1
            rw [totalFor_cons, if_pos ⟨by simp [hst], hv.symm⟩, hv]
            simp only [Option.getD_some] at h1
            push_cast at h1 ⊢
            linarith
          · rw [mget_mset_ne _ _ _ _ hv] at h1
            rw [totalFor_cons, if_neg (by intro hcc; exact hv hcc.2.symm)]
            simpa using h1
        · right
          exact h1

theorem cvFold_winner_isSome (sb : List (Addr × ℤ)) (needed : ℚ) (h r : ℕ) :
    ∀ (l : List (Addr × Vote)) (cand : List (String × ℤ)) (u : String),
      ∃ x, (cvFold sb needed h r cand (some u) l).2 = some x := by
  intro l
  induction l with
  | nil =>
    intro cand u
    exact ⟨u, rfl⟩
  | cons p rest ih =>
    intro cand u
    simp only [cvFold]
    split
    · exact ih _ _
    · split
      · rw [nil_ite]
        exact ih _ _
      · exact ih _ _

theorem cvFold_none_bound (sb : List (Addr × ℤ)) (needed : ℚ) (h r : ℕ) :
    ∀ (l : List (Addr × Vote)) (cand : List (String × ℤ)) (w : Option String),
      (∀ b, (((mget cand b).getD 0 : ℤ) : ℚ) ≤ needed) →
      (cvFold sb needed h r cand w l).2 = none →
      ∀ b, (((mget cand b).getD 0 + totalFor sb h r b l : ℤ) : ℚ) ≤ needed := by
  intro l
  induction l with
  | nil =>
    intro cand w hc hw b
    simpa [totalFor] using hc b
  | cons p rest ih =>
    intro cand w hc hw b
    simp only [cvFold] at hw
    by_cases hst : p.2.isStale h r
    · rw [if_pos hst] at hw
      have hb := ih _ _ hc hw b
      rw [totalFor_cons, if_neg (by simp [hst])]
      simpa using hb
    · rw [if_neg hst] at hw
      by_cases hgt :
          ((((mget cand p.2.blockID).getD 0 + (mget sb p.1).getD 0 : ℤ) : ℚ))
            > needed
      · rw [if_pos hgt] at hw
        obtain ⟨x, hx⟩ := cvFold_winner_isSome sb needed h r rest
          (mset cand p.2.blockID ((mget cand p.2.blockID).getD 0 + (mget sb p.1).getD 0))
          (if p.2.blockID = NIL then NIL else p.2.blockID)
        rw [hw] at hx
        cases hx
      · rw [if_neg hgt] at hw
        have hc' : ∀ b',
            (((mget (mset cand p.2.blockID
                ((mget cand p.2.blockID).getD 0 + (mget sb p.1).getD 0)) b').getD 0
              : ℤ) : ℚ) ≤ needed := by
          intro b'
          by_cases hb' : b' = p.2.blockID
          · rw [hb', mget_mset_self]
            simpa using le_of_not_lt hgt
          · rw [mget_mset_ne _ _ _ _ hb']
            exact hc b'
        have hb := ih _ _ hc' hw b
        by_cases hbq : b = p.2.blockID
        · rw [hbq, mget_mset_self] at hb
          rw [hbq, totalFor_cons, if_pos ⟨by simp [hst], rfl⟩]
          simp only [Option.getD_some] at hb
          push_cast at hb ⊢
          linarith
        · rw [mget_mset_ne _ _ _ _ hbq] at hb
          rw [totalFor_cons, if_neg (by intro hcc; exact hbq hcc.2.symm)]
          simpa using hb

theorem cvFold_some_mem (sb : List (Addr × ℤ)) (needed : ℚ) (h r : ℕ) :
    ∀ (l : List (Addr × Vote)) (cand : List (String × ℤ)) (w : Option String)
      (v : String),
      (cvFold sb needed h r cand w l).2 = some v →
      w = some v ∨ v ∈ l.map (fun p => p.2.blockID) := by
  intro l
  induction l with
  | nil =>
    intro cand w v hw
    left
    simpa [cvFold] using hw
  | cons p rest ih =>
    intro cand w v hw
    simp only [cvFold] at hw
    simp only [List.map_cons, List.mem_cons]
    by_cases hst : p.2.isStale h r
    · rw [if_pos hst] at hw
      rcases ih _ _ _ hw with h1 | h1
      · exact Or.inl h1
      · exact Or.inr (Or.inr h1)
    · rw [if_neg hst] at hw
      by_cases hgt :
          ((((mget cand p.2.blockID).getD 0 + (mget sb p.1).getD 0 : ℤ) : ℚ))
            > needed
      · rw [if_pos hgt, nil_ite] at hw
        rcases ih _ _ _ hw with h1 | h1
        · injection h1 with h1
          exact Or.inr (Or.inl h1.symm)
        · exact Or.inr (Or.inr h1)
      · rw [if_neg hgt] at hw
        rcases ih _ _ _ hw with h1 | h1
        · exact Or.inl h1
        · exact Or.inr (Or.inr h1)

theorem totalFor_pair_le (sb : List (Addr × ℤ)) (h r : ℕ)
    (hnn : ∀ q ∈ sb, 0 ≤ q.2) (b₁ b₂ : String) (hne : b₁ ≠ b₂) :
    ∀ l : List (Addr × Vote),
      totalFor sb h r b₁ l + totalFor sb h r b₂ l
        ≤ (l.map (fun p => (mget sb p.1).getD 0)).sum := by
  intro l
  induction l with
  | nil => simp [totalFor]
  | cons p rest ih =>
    rw [totalFor_cons, totalFor_cons]
    simp only [List.map_cons, List.sum_cons]
    have hstake := mgetD_nonneg sb p.1 hnn
    by_cases c1 : ¬ p.2.isStale h r = true ∧ p.2.blockID = b₁
    · rw [if_pos c1]
      rw [if_neg (by intro c2; exact hne (c1.2.symm.trans c2.2))]
      linarith
    · rw [if_neg c1]
      by_cases c2 : ¬ p.2.isStale h r = true ∧ p.2.blockID = b₂
      · rw [if_pos c2]
        linarith
      · rw [if_neg c2]
        linarith

theorem sum_mget_le :
    ∀ (ks : List Addr), ks.Nodup →
      ∀ (m : List (Addr × ℤ)), (∀ q ∈ m, 0 ≤ q.2) →
        (ks.map (fun k => (mget m k).getD 0)).sum ≤ msumZ m := by
  intro ks
  induction ks with
  | nil =>
    intro _ m hnn
    simpa using msum_nonneg m hnn
  | cons k ks ih =>
    intro hnd m hnn
    simp only [List.nodup_cons] at hnd
    simp only [List.map_cons, List.sum_cons]
    have hrest : (ks.map (fun k' => (mget m k').getD 0)).sum
        = (ks.map (fun k' => (mget (mdel m k) k').getD 0)).sum := by
      apply congrArg List.sum
      apply List.map_congr_left
      intro x hx
      rw [mget_mdel_ne]
      intro he
      exact hnd.1 (he ▸ hx)
    have h2 := ih hnd.2 (mdel m k) (fun q hq => hnn q (mem_mdel _ _ _ hq))
    rw [hrest]
    have h3 := msum_mdel m k
    linarith

theorem unique_exceeder (sb : List (Addr × ℤ)) (h r : ℕ)
    (hnn : ∀ q ∈ sb, 0 ≤ q.2) (l : List (Addr × Vote))
    (hnd : (l.map Prod.fst).Nodup) (b₁ b₂ : String)
    (h1 : 2 * (msumZ sb : ℚ) / 3 < ((totalFor sb h r b₁ l : ℤ) : ℚ))
    (h2 : 2 * (msumZ sb : ℚ) / 3 < ((totalFor sb h r b₂ l : ℤ) : ℚ)) :
    b₁ = b₂ := by
  by_contra hne
  have hpair := totalFor_pair_le sb h r hnn b₁ b₂ hne l
  have hsum : (l.map (fun p => (mget sb p.1).getD 0)).sum ≤ msumZ sb := by
    have hh := sum_mget_le (l.map Prod.fst) hnd sb hnn
    rw [List.map_map] at hh
    exact hh
  have hT0 : (0 : ℚ) ≤ (msumZ sb : ℚ) := by exact_mod_cast msum_nonneg sb hnn
  have hc : ((totalFor sb h r b₁ l + totalFor sb h r b₂ l : ℤ) : ℚ) ≤ (msumZ sb : ℚ) := by
    exact_mod_cast le_trans hpair hsum
  push_cast at hc
  linarith

/-- C1: `countVotes` returns a blockID `w` only if the stake summed over
the non-stale votes for `w` strictly exceeds `⌊2·totalStake/3⌋` (with
`totalStake` the sum of the current block's stakeBalances), and returns
`none` (undefined) when no voted blockID's accumulated stake exceeds
that threshold. -/
theorem countVotes_threshold (sb : List (Addr × ℤ)) (height round : ℕ)
    (bb : List (Addr × Vote)) (w : String)
    (hnn : ∀ q ∈ sb, 0 ≤ q.2) :
    (countVotes sb height round bb = some w →
      ⌊2 * (msumZ sb : ℚ) / 3⌋ < totalFor sb height round w bb) ∧
    ((∀ b ∈ bb.map (fun p => p.2.blockID),
        totalFor sb height round b bb ≤ ⌊2 * (msumZ sb : ℚ) / 3⌋) →
      countVotes sb height round bb = none) := by
  constructor
  · intro hw
    simp only [countVotes] at hw
    rcases cvFold_some_exceeds sb (2 * (msumZ sb : ℚ) / 3) height round hnn
      bb [] none w hw with hx | hx
    · rw [Int.floor_lt]
      simpa [mget] using hx
    · cases hx
  · intro hall
    cases hcv : countVotes sb height round bb with
    | none => rfl
    | some v =>
      exfalso
      simp only [countVotes] at hcv
      rcases cvFold_some_exceeds sb (2 * (msumZ sb : ℚ) / 3) height round hnn
        bb [] none v hcv with hx | hx
      swap
      · cases hx
      rcases cvFold_some_mem sb (2 * (msumZ sb : ℚ) / 3) height round
        bb [] none v hcv with hm | hm
      · cases hm
      have hb := hall v hm
      rw [← Int.floor_lt] at hx
      simp [mget] at hx
      omega

/-- Witness for C1: stakes {a:50, b:30, c:20} (totalStake 100, threshold
66); votes from "a" and "b" for block "X" accumulate 80 > 66, and indeed
`countVotes` returns "X" with `totalFor` exceeding the floor threshold. -/
theorem countVotes_threshold_witness :
    (∀ q ∈ ([("a", 50), ("b", 30), ("c", 20)] : List (Addr × ℤ)), 0 ≤ q.2) ∧
    ⌊2 * (msumZ ([("a", 50), ("b", 30), ("c", 20)] : List (Addr × ℤ)) : ℚ) / 3⌋
      < totalFor [("a", 50), ("b", 30), ("c", 20)] 1 1 "X"
          [("a", ⟨"a", 1, 1, "PREVOTE", "X", "a", none⟩),
           ("b", ⟨"b", 1, 1, "PREVOTE", "X", "b", none⟩)] :=
  ⟨by decide,
    (countVotes_threshold [("a", 50), ("b", 30), ("c", 20)] 1 1
      [("a", ⟨"a", 1, 1, "PREVOTE", "X", "a", none⟩),
       ("b", ⟨"b", 1, 1, "PREVOTE", "X", "b", none⟩)] "X" (by decide)).1
      (by simp [countVotes, cvFold, Vote.isStale, mget, msumZ, NIL, COMMIT]; norm_num)⟩

/-- C9: `countVotes` is order-independent: for a ballot box with at most
one vote per voter (duplicate-free keys) and nonnegative stakes, any
permutation of the stored votes yields the same winning blockID, because
at most one blockID's total can strictly exceed the 2/3 threshold. -/
theorem countVotes_order_independent (sb : List (Addr × ℤ)) (height round : ℕ)
    (bb₁ bb₂ : List (Addr × Vote))
    (hnn : ∀ q ∈ sb, 0 ≤ q.2)
    (hnd : (bb₁.map Prod.fst).Nodup)
    (hperm : bb₁.Perm bb₂) :
    countVotes sb height round bb₁ = countVotes sb height round bb₂ := by
  have htot : ∀ b, totalFor sb height round b bb₁ = totalFor sb height round b bb₂ := by
    intro b
    exact List.Perm.sum_eq (hperm.map _)
  have hnd₂ : (bb₂.map Prod.fst).Nodup := ((hperm.map Prod.fst).nodup_iff).mp hnd
  have hc0 : ∀ b, (((mget ([] : List (String × ℤ)) b).getD 0 : ℤ) : ℚ)
      ≤ 2 * (msumZ sb : ℚ) / 3 := by
    intro b
    have hT0 : (0 : ℚ) ≤ (msumZ sb : ℚ) := by exact_mod_cast msum_nonneg sb hnn
    simp [mget]
    linarith
  cases h1 : countVotes sb height round bb₁ with
  | none =>
    cases h2 : countVotes sb height round bb₂ with
    | none => rfl
    | some v2 =>
      exfalso
      simp only [countVotes] at h1 h2
      rcases cvFold_some_exceeds sb (2 * (msumZ sb : ℚ) / 3) height round hnn
        bb₂ [] none v2 h2 with hx | hx
      swap
      · cases hx
      have hb := cvFold_none_bound sb (2 * (msumZ sb : ℚ) / 3) height round
        bb₁ [] none hc0 h1 v2
      rw [htot v2] at hb
      simp [mget] at hb hx
      linarith
  | some v1 =>
    cases h2 : countVotes sb height round bb₂ with
    | none =>
      exfalso
      simp only [countVotes] at h1 h2
      rcases cvFold_some_exceeds sb (2 * (msumZ sb : ℚ) / 3) height round hnn
        bb₁ [] none v1 h1 with hx | hx
      swap
      · cases hx
      have hb := cvFold_none_bound sb (2 * (msumZ sb : ℚ) / 3) height round
        bb₂ [] none hc0 h2 v1
      rw [← htot v1] at hb
      simp [mget] at hb hx
      linarith
    | some v2 =>
      simp only [countVotes] at h1 h2
      rcases cvFold_some_exceeds sb (2 * (msumZ sb : ℚ) / 3) height round hnn
        bb₁ [] none v1 h1 with hx1 | hx1
      swap
      · cases hx1
      rcases cvFold_some_exceeds sb (2 * (msumZ sb : ℚ) / 3) height round hnn
        bb₂ [] none v2 h2 with hx2 | hx2
      swap
      · cases hx2
      simp only [mget, Option.getD_none, zero_add] at hx1 hx2
      rw [← htot v2] at hx2
      have hv := unique_exceeder sb height round hnn bb₁ hnd v1 v2 hx1 hx2
      rw [hv]

/-- Witness for C9: the two-vote ballot box of the C1 scenario tallied in
both orders yields the same winner. -/
theorem countVotes_order_independent_witness :
    countVotes [("a", 50), ("b", 30), ("c", 20)] 1 1
        [("a", ⟨"a", 1, 1, "PREVOTE", "X", "a", none⟩),
         ("b", ⟨"b", 1, 1, "PREVOTE", "X", "b", none⟩)]
      = countVotes [("a", 50), ("b", 30), ("c", 20)] 1 1
        [("b", ⟨"b", 1, 1, "PREVOTE", "X", "b", none⟩),
         ("a", ⟨"a", 1, 1, "PREVOTE", "X", "a", none⟩)] :=
  countVotes_order_independent [("a", 50), ("b", 30), ("c", 20)] 1 1
    [("a", ⟨"a", 1, 1, "PREVOTE", "X", "a", none⟩),
     ("b", ⟨"b", 1, 1, "PREVOTE", "X", "b", none⟩)]
    [("b", ⟨"b", 1, 1, "PREVOTE", "X", "b", none⟩),
     ("a", ⟨"a", 1, 1, "PREVOTE", "X", "a", none⟩)]
    (by decide) (by decide)
    (List.Perm.swap _ _ _)
